import Mathlib

/-!
Verification of the MCMC substitution-cipher decoder (`enigma.py`,
class `EnigmaForDummies`).

The embedding works over the fixed 27-symbol alphabet (space followed by
the lowercase letters).  Canonical texts are lists of characters, and the
texts flowing through the scorer and the search are lists of symbol
indices (`Fin 27`); the two views are connected by `charFin`/`symbolOf`,
which are mutually inverse on the alphabet.  Ciphers, which the source
keeps as Python dictionaries that are bijections of the alphabet, are
embedded as permutations `Equiv.Perm (Fin 27)`.  Randomness (the initial
shuffle, the two proposal draws and the uniform acceptance draw of each
iteration) is made explicit: a run consumes a list of `StepInput`s, one
per iteration.  Floating-point numbers are modelled by the reals; the
trained matrix, whose arithmetic is exact, is kept in `ℚ`.
-/

set_option maxHeartbeats 1000000

namespace Enigma

/-- The 27-symbol alphabet: space followed by the lowercase letters
(source line 12: `self.alphabet = " " + string.ascii_lowercase`). -/
def alphabetList : List Char := " abcdefghijklmnopqrstuvwxyz".toList

/-- Index of a symbol in the alphabet (source lines 13-15,
`char_index_mapping`): space is 0 and letter number k of the ASCII
alphabet is k.  Characters outside the alphabet never reach this map in
the source (texts are canonicalized first); the `% 27` merely keeps the
value in range for them. -/
def charFin (ch : Char) : Fin 27 :=
  ⟨(if ch = ' ' then 0 else ch.toNat - 96) % 27, Nat.mod_lt _ (by norm_num)⟩

/-- The symbol at a given alphabet index. -/
def symbolOf (i : Fin 27) : Char := alphabetList.getD i.val ' '

/-- Canonicalization (source lines 11, 41 and 80): lowercase the string,
then delete every character that does not match `[a-z ]`, i.e. keep
exactly the alphabet characters. -/
def canonicalize (s : String) : List Char :=
  (s.toList.map Char.toLower).filter (fun ch => decide (ch ∈ alphabetList))

/-- `encrypt_or_decrypt` (source lines 17-27): transform a text by
sending each symbol through the mapping dictionary.  The dictionary is
modelled as a total function on `Char`; the source requires every symbol
of the text to be one of its keys. -/
def encrypt_or_decrypt (text : List Char) (mapping : Char → Char) : List Char :=
  text.map mapping

/-- The char-to-char dictionary induced by a permutation `c` of the 27
indices: the alphabet symbol of index i is sent to the symbol of index
`c i`.  The random dictionary `dict(zip(alphabet, shuffled_alphabet))`
of source line 83 is `cipherFun c` for the permutation `c` realized by
the shuffle. -/
def cipherFun (c : Equiv.Perm (Fin 27)) : Char → Char :=
  fun ch => symbolOf (c (charFin ch))

/-- `encrypt_text` (source lines 71-85), with the random shuffle made
explicit as the permutation `c`: canonicalize the input and apply the
random cipher dictionary to it. -/
def encrypt_text (c : Equiv.Perm (Fin 27)) (text : String) : List Char :=
  encrypt_or_decrypt (canonicalize text) (cipherFun c)

/-- The consecutive-pair transitions of one line (source line 44:
`clean_line.repeat(2)[1:-1].reshape(-1, 2)` enumerates exactly the
adjacent pairs of the cleaned line). -/
def pairsOf (l : List (Fin 27)) : List (Fin 27 × Fin 27) := l.zip l.tail

/-- A corpus line after canonicalization, encoded as symbol indices. -/
def lineFins (s : String) : List (Fin 27) := (canonicalize s).map charFin

/-- Number of occurrences of the bigram `(i, j)` in the corpus, counted
over consecutive pairs within each line and never across line boundaries
(source lines 36-50, the `char_bigram_counts` dictionary). -/
def bigramCount (lines : List String) (i j : Fin 27) : ℕ :=
  (lines.map (fun s => (pairsOf (lineFins s)).count (i, j))).sum

/-- The smoothed count matrix (source lines 56-64): every cell starts at
the pseudocount 2 (`np.ones((n, n)) + 1`), and the cell of every bigram
present in the counts dictionary is then overwritten with its raw count.
A bigram is in the dictionary exactly when its count is non-zero, and
each cell is written at most once, so the cell holds the raw count when
it is non-zero and the pseudocount 2 otherwise. -/
def rawMatrix (lines : List String) (i j : Fin 27) : ℚ :=
  if bigramCount lines i j = 0 then 2 else (bigramCount lines i j : ℚ)

/-- A row sum of the smoothed count matrix (source line 67). -/
def rowSum (lines : List String) (i : Fin 27) : ℚ :=
  ∑ j, rawMatrix lines i j

/-- The trained matrix `self.empirical_frequences` produced by
`prepare_empirical_freq_normalized` (source lines 29-69): each row of
the smoothed count matrix divided by its sum. -/
def empirical_frequences (lines : List String) (i j : Fin 27) : ℚ :=
  rawMatrix lines i j / rowSum lines i

/-- The scoring loop of `score_cipher` (source lines 101-106): for
`i in range(len(decrypted) - 1)`, add `log M[d[i]][d[i+1]]`.  `getD`
models the indexing `d[i]`, which the loop keeps in range. -/
noncomputable def scoreAux (M : Fin 27 → Fin 27 → ℚ) (d : List (Fin 27)) : ℝ :=
  (List.range (d.length - 1)).foldl
    (fun s i => s + Real.log ((M (d.getD i 0) (d.getD (i + 1) 0) : ℚ) : ℝ)) 0

/-- `score_cipher` (source lines 87-107): decrypt the text with the
inverse dictionary `{v: k for k, v in cipher.items()}` of the cipher,
then sum the logarithms of the transition probabilities of all adjacent
pairs of the decryption. -/
noncomputable def score_cipher (M : Fin 27 → Fin 27 → ℚ)
    (cipher : Equiv.Perm (Fin 27)) (encrypted : List (Fin 27)) : ℝ :=
  scoreAux M (encrypted.map cipher.symm)

/-- The randomness one iteration of the search loop consumes (source
lines 130 and 137): the two symbols drawn with replacement for the
transposition, and the uniform draw from `[0, 1)` used by the acceptance
test (`random.uniform(0, 1)`; the draw is only inspected when the first
disjunct of the acceptance test is false, so carrying it always is
observationally equivalent). -/
structure StepInput where
  r1 : Fin 27
  r2 : Fin 27
  u : ℝ

/-- The state of the search loop (source lines 122-127): the chain's
current cipher with its score, and the best cipher seen with its
score. -/
@[ext]
structure MCMCState where
  current : Equiv.Perm (Fin 27)
  currentScore : ℝ
  best : Equiv.Perm (Fin 27)
  bestScore : ℝ

/-- The proposal (source lines 131-133): copy the current cipher and
exchange the images of the two drawn symbols.  As a permutation this is
the current cipher composed with the transposition of the two symbols:
the proposal sends r1 to current(r2), r2 to current(r1) and every other
symbol to its current image. -/
def proposal (c : Equiv.Perm (Fin 27)) (r1 r2 : Fin 27) : Equiv.Perm (Fin 27) :=
  c * Equiv.swap r1 r2

/-- The score of the proposal (source line 134). -/
noncomputable def proposalScore (M : Fin 27 → Fin 27 → ℚ) (enc : List (Fin 27))
    (st : MCMCState) (inp : StepInput) : ℝ :=
  score_cipher M (proposal st.current inp.r1 inp.r2) enc

/-- One iteration of the search loop (source lines 128-145): build the
proposal and score it; accept it into the chain's current state when its
score strictly exceeds the current score or the uniform draw is below
`exp(new_score - current_score)`; independently, replace the tracked
best pair whenever the proposal's score strictly exceeds the best
score. -/
noncomputable def step (M : Fin 27 → Fin 27 → ℚ) (enc : List (Fin 27))
    (st : MCMCState) (inp : StepInput) : MCMCState where
  current :=
    if proposalScore M enc st inp > st.currentScore
        ∨ inp.u < Real.exp (proposalScore M enc st inp - st.currentScore)
    then proposal st.current inp.r1 inp.r2 else st.current
  currentScore :=
    if proposalScore M enc st inp > st.currentScore
        ∨ inp.u < Real.exp (proposalScore M enc st inp - st.currentScore)
    then proposalScore M enc st inp else st.currentScore
  best :=
    if proposalScore M enc st inp > st.bestScore
    then proposal st.current inp.r1 inp.r2 else st.best
  bestScore :=
    if proposalScore M enc st inp > st.bestScore
    then proposalScore M enc st inp else st.bestScore

/-- The initial state of the search (source lines 122-127): a random
initial cipher (the shuffle made explicit as the permutation `c0`), its
score, and the best pair initialized to a copy of it. -/
noncomputable def initState (M : Fin 27 → Fin 27 → ℚ) (enc : List (Fin 27))
    (c0 : Equiv.Perm (Fin 27)) : MCMCState :=
  { current := c0, currentScore := score_cipher M c0 enc,
    best := c0, bestScore := score_cipher M c0 enc }

/-- The search loop, iterated over an explicit stream of per-iteration
randomness: one `StepInput` per iteration, so `iters = inputs.length`. -/
noncomputable def run (M : Fin 27 → Fin 27 → ℚ) (enc : List (Fin 27))
    (st : MCMCState) (inputs : List StepInput) : MCMCState :=
  inputs.foldl (step M enc) st

/-- The Python values the `verbose` argument ranges over in practice:
booleans, ints and floats (`verbose=False` disables reporting). -/
inductive PyVal where
  | pyBool (b : Bool)
  | pyInt (n : ℤ)
  | pyFloat (q : ℚ)

/-- Python truthiness of a `verbose` value (source line 148:
`if i % 500 == 0 and verbose:`). -/
def truthy : PyVal → Bool
  | .pyBool b => b
  | .pyInt n => n != 0
  | .pyFloat q => q != 0

/-- The assertion test of source lines 149-151:
`type(verbose) is int and verbose > 0`.  Note that in Python
`type(True) is int` is false, so booleans fail this test. -/
def verboseOK : PyVal → Bool
  | .pyInt n => decide (0 < n)
  | _ => false

/-- The search loop with the progress-reporting block of source lines
147-158 included: every iteration whose index is a multiple of 500 and
whose `verbose` is truthy asserts that `verbose` is a positive int and
aborts the run otherwise.  The proposal/acceptance/best updates of the
iteration happen before the check, as in the source; the `print` itself
is a pure side effect and has no state. -/
noncomputable def loopE (M : Fin 27 → Fin 27 → ℚ) (enc : List (Fin 27)) (v : PyVal) :
    ℕ → MCMCState → List StepInput → Except String MCMCState
  | _, st, [] => .ok st
  | i, st, inp :: rest =>
    if (i % 500 == 0) && truthy v then
      if verboseOK v then loopE M enc v (i + 1) (step M enc st inp) rest
      else .error ("Select verbose=False or pass positive integer")
    else loopE M enc v (i + 1) (step M enc st inp) rest

/-- The engine's mutable attributes that the decryption path reads
(source lines 9-15 and 69): the `emp_freq_prepared` flag, and the
`empirical_frequences` attribute, absent (`none`) until training has
run. -/
structure Engine where
  emp_freq_prepared : Bool
  empirical_frequences : Option (Fin 27 → Fin 27 → ℚ)

/-- The engine state after `prepare_empirical_freq_normalized` on a
corpus (source lines 68-69). -/
def trainEngine (lines : List String) : Engine :=
  ⟨true, some (empirical_frequences lines)⟩

/-- `score_cipher` as executed on an engine: the body first computes the
decryption, then reads `self.empirical_frequences` once per adjacent
pair inside the summing loop.  When the attribute was never set that
read raises (AttributeError); a decrypted text with fewer than two
symbols never enters the loop and so never reads the attribute. -/
noncomputable def scoreCipherE (e : Engine) (cipher : Equiv.Perm (Fin 27))
    (encrypted : List (Fin 27)) : Except String ℝ :=
  let d := encrypted.map cipher.symm
  (d.zip d.tail).foldlM
    (fun s p =>
      match e.empirical_frequences with
      | none => .error ("AttributeError: empirical_frequences")
      | some M => .ok (s + Real.log ((M p.1 p.2 : ℚ) : ℝ))) (0 : ℝ)

/-- A Python dict built from an association list: a later entry with the
same key overwrites an earlier one (source line 163:
`dict(zip(plaintext_alphabet, cipher_alphabet))`), and lookup of an
absent key yields nothing. -/
def dictGet (ps : List (Fin 27 × Fin 27)) (k : Fin 27) : Option (Fin 27) :=
  ps.foldl (fun acc p => if p.1 = k then some p.2 else acc) none

/-- Source lines 161-163: the keys of the best cipher are the whole
alphabet, so `sorted(best_cifer.keys())` is the alphabet in order
(`charFin` is order-preserving), i.e. `List.finRange 27`; each key k
contributes the pair (best k, k) to the saved mapping. -/
def reconstructPairs (c : Equiv.Perm (Fin 27)) : List (Fin 27 × Fin 27) :=
  (List.finRange 27).map (fun k => (c k, k))

/-- The final mapping saved from the best cipher (source lines
160-163). -/
def savedMapping (c : Equiv.Perm (Fin 27)) (s : Fin 27) : Option (Fin 27) :=
  dictGet (reconstructPairs c) s

/-- Applying a symbol-level mapping to an index-encoded text, the
`Fin 27` view of `encrypt_or_decrypt`. -/
def applyMapping (f : Fin 27 → Fin 27) (l : List (Fin 27)) : List (Fin 27) :=
  l.map f

/-- `process_decryption` (source lines 109-167), with the randomness
explicit: `c0` is the initial shuffle and `inputs` the per-iteration
draws.  The precondition assert of line 120 runs first; with the flag
set the matrix attribute is read (absent means AttributeError), the
search loop runs, and the text transformed by the mapping reconstructed
from the best cipher is returned. -/
noncomputable def process_decryption (e : Engine) (encrypted : List (Fin 27))
    (c0 : Equiv.Perm (Fin 27)) (inputs : List StepInput) (verbose : PyVal) :
    Except String (List (Fin 27)) :=
  if e.emp_freq_prepared then
    match e.empirical_frequences with
    | none => .error ("AttributeError: empirical_frequences")
    | some M =>
      (loopE M encrypted verbose 0 (initState M encrypted c0) inputs).map
        (fun final => encrypted.map (fun s => (savedMapping final.best s).getD 0))
  else .error ("Prepare empirical frequences first.")

/- ------------------------------------------------------------------ -/
/- Helper lemmas about the trained matrix.                             -/
/- ------------------------------------------------------------------ -/

theorem rawMatrix_pos (lines : List String) (i j : Fin 27) :
    0 < rawMatrix lines i j := by
  unfold rawMatrix
  split
  · norm_num
  · exact_mod_cast Nat.pos_of_ne_zero (by assumption)

theorem rowSum_pos (lines : List String) (i : Fin 27) :
    0 < rowSum lines i :=
  Finset.sum_pos (fun j _ => rawMatrix_pos lines i j) Finset.univ_nonempty

theorem empirical_frequences_pos (lines : List String) (i j : Fin 27) :
    0 < empirical_frequences lines i j :=
  div_pos (rawMatrix_pos lines i j) (rowSum_pos lines i)

theorem rawMatrix_lt_rowSum (lines : List String) (i j : Fin 27) :
    rawMatrix lines i j < rowSum lines i := by
  have h := Finset.add_sum_erase Finset.univ (fun k => rawMatrix lines i k)
    (Finset.mem_univ j)
  have hpos : 0 < ∑ k ∈ Finset.univ.erase j, rawMatrix lines i k := by
    refine Finset.sum_pos (fun k _ => rawMatrix_pos lines i k) ?_
    rw [← Finset.card_pos, Finset.card_erase_of_mem (Finset.mem_univ j)]
    simp
  have hsum : rowSum lines i = ∑ k, rawMatrix lines i k := rfl
  rw [hsum]
  linarith [h]

theorem empirical_frequences_lt_one (lines : List String) (i j : Fin 27) :
    empirical_frequences lines i j < 1 := by
  unfold empirical_frequences
  rw [div_lt_one (rowSum_pos lines i)]
  exact rawMatrix_lt_rowSum lines i j

theorem empirical_frequences_row_sum (lines : List String) (i : Fin 27) :
    ∑ j, empirical_frequences lines i j = 1 := by
  unfold empirical_frequences
  rw [← Finset.sum_div]
  exact div_self (ne_of_gt (rowSum_pos lines i))

/-- Claim C1: training produces a 27x27 matrix whose cell (i, j) holds
the raw observed count of that bigram (counted within each canonicalized
line, never across lines) whenever that count is at least 1 and the
pseudocount 2 otherwise (the count overwrites the pseudocount), with
each row then divided by its sum; consequently every row of the trained
matrix sums to 1 and every entry is strictly positive. -/
theorem claim_C1 (lines : List String) :
    (∀ i j, empirical_frequences lines i j
        = (if 1 ≤ bigramCount lines i j then (bigramCount lines i j : ℚ) else 2)
            / rowSum lines i)
    ∧ (∀ i, ∑ j, empirical_frequences lines i j = 1)
    ∧ (∀ i j, 0 < empirical_frequences lines i j) := by
  refine ⟨fun i j => ?_, empirical_frequences_row_sum lines,
    empirical_frequences_pos lines⟩
  unfold empirical_frequences rawMatrix
  by_cases h : bigramCount lines i j = 0
  · simp [h]
  · have h1 : 1 ≤ bigramCount lines i j := Nat.one_le_iff_ne_zero.mpr h
    simp [h, h1]

/- ------------------------------------------------------------------ -/
/- The alphabet encoding is a bijection on canonical characters.       -/
/- ------------------------------------------------------------------ -/

theorem charFin_symbolOf : ∀ i : Fin 27, charFin (symbolOf i) = i := by decide

theorem symbolOf_charFin {ch : Char} (h : ch ∈ alphabetList) :
    symbolOf (charFin ch) = ch := by
  have hall : alphabetList.all (fun ch => symbolOf (charFin ch) == ch) = true := by decide
  have := List.all_eq_true.mp hall ch h
  exact eq_of_beq this

theorem mem_alphabet_of_mem_canonicalize {s : String} {ch : Char}
    (h : ch ∈ canonicalize s) : ch ∈ alphabetList := by
  unfold canonicalize at h
  exact of_decide_eq_true (List.mem_filter.mp h).2

theorem round_trip_on_alphabet (c : Equiv.Perm (Fin 27)) (t : List Char)
    (ht : ∀ ch ∈ t, ch ∈ alphabetList) :
    encrypt_or_decrypt (encrypt_or_decrypt t (cipherFun c)) (cipherFun c.symm) = t := by
  unfold encrypt_or_decrypt
  rw [List.map_map]
  have hpt : ∀ ch ∈ t, (cipherFun c.symm ∘ cipherFun c) ch = id ch := by
    intro ch hch
    show cipherFun c.symm (cipherFun c ch) = ch
    unfold cipherFun
    rw [charFin_symbolOf, Equiv.symm_apply_apply, symbolOf_charFin (ht ch hch)]
  rw [List.map_congr_left hpt, List.map_id]

/-- Claim C6: for every bijective cipher over the 27-symbol alphabet and
every canonical text, applying the cipher and then its inverse returns
the text unchanged; in particular applying the inverse of the random
cipher generated inside `encrypt_text` to its output recovers the
canonicalized input text exactly. -/
theorem claim_C6 :
    (∀ (c : Equiv.Perm (Fin 27)) (t : List Char), (∀ ch ∈ t, ch ∈ alphabetList) →
        encrypt_or_decrypt (encrypt_or_decrypt t (cipherFun c)) (cipherFun c.symm) = t)
    ∧ (∀ (c : Equiv.Perm (Fin 27)) (s : String),
        encrypt_or_decrypt (encrypt_text c s) (cipherFun c.symm) = canonicalize s) := by
  refine ⟨round_trip_on_alphabet, fun c s => ?_⟩
  exact round_trip_on_alphabet c (canonicalize s)
    (fun ch hch => mem_alphabet_of_mem_canonicalize hch)

/-- Witness for claim C6: a concrete canonical text and cipher for which
the round trip is the identity. -/
theorem claim_C6_witness :
    (['h', 'i', ' '] : List Char).all (fun ch => decide (ch ∈ alphabetList)) = true
    ∧ encrypt_or_decrypt
        (encrypt_or_decrypt ['h', 'i', ' '] (cipherFun (Equiv.swap 1 2)))
        (cipherFun (Equiv.swap 1 2).symm) = ['h', 'i', ' '] :=
  ⟨by decide, claim_C6.1 (Equiv.swap 1 2) ['h', 'i', ' '] (by decide)⟩

theorem foldl_add_eq_sum (g : ℕ → ℝ) :
    ∀ (l : List ℕ) (s : ℝ), l.foldl (fun acc i => acc + g i) s = s + (l.map g).sum := by
  intro l
  induction l with
  | nil => intro s; simp
  | cons a t ih =>
    intro s
    simp only [List.foldl_cons, List.map_cons, List.sum_cons]
    rw [ih]
    ring

theorem range_getD_eq_zip (g : Fin 27 → Fin 27 → ℝ) :
    ∀ l : List (Fin 27),
      (List.range (l.length - 1)).map (fun i => g (l.getD i 0) (l.getD (i + 1) 0))
        = (l.zip l.tail).map (fun p => g p.1 p.2) := by
  intro l
  induction l with
  | nil => simp
  | cons a t ih =>
    cases t with
    | nil => simp
    | cons b t2 =>
      have hlen : (a :: b :: t2).length - 1 = ((b :: t2).length - 1) + 1 := by
        simp
      rw [hlen, List.range_succ_eq_map]
      simp only [List.map_cons, List.map_map, List.tail_cons, List.zip_cons_cons]
      have hfun : ((fun i => g ((a :: b :: t2).getD i 0) ((a :: b :: t2).getD (i + 1) 0))
          ∘ Nat.succ)
          = fun i => g ((b :: t2).getD i 0) ((b :: t2).getD (i + 1) 0) := by
        funext i
        simp
      rw [hfun]
      have ih2 := ih
      simp only [List.tail_cons] at ih2
      rw [ih2]
      simp

theorem list_sum_nonpos_of_forall : ∀ l : List ℝ, (∀ x ∈ l, x ≤ 0) → l.sum ≤ 0 := by
  intro l
  induction l with
  | nil => intro _; simp
  | cons a t ih =>
    intro h
    simp only [List.sum_cons]
    have ha := h a (List.mem_cons_self a t)
    have ht := ih (fun x hx => h x (List.mem_cons_of_mem a hx))
    linarith

theorem list_sum_neg_of_forall : ∀ l : List ℝ, (∀ x ∈ l, x < 0) → l ≠ [] → l.sum < 0 := by
  intro l
  induction l with
  | nil => intro _ h; exact absurd rfl h
  | cons a t ih =>
    intro h _
    simp only [List.sum_cons]
    have ha := h a (List.mem_cons_self a t)
    have ht : t.sum ≤ 0 :=
      list_sum_nonpos_of_forall t (fun x hx => le_of_lt (h x (List.mem_cons_of_mem a hx)))
    linarith

theorem score_cipher_eq_sum (M : Fin 27 → Fin 27 → ℚ)
    (cipher : Equiv.Perm (Fin 27)) (enc : List (Fin 27)) :
    score_cipher M cipher enc
      = (((enc.map cipher.symm).zip (enc.map cipher.symm).tail).map
          (fun p => Real.log ((M p.1 p.2 : ℚ) : ℝ))).sum := by
  unfold score_cipher scoreAux
  rw [foldl_add_eq_sum (fun i => Real.log
    ((M ((enc.map cipher.symm).getD i 0) ((enc.map cipher.symm).getD (i + 1) 0) : ℚ) : ℝ))]
  rw [zero_add, range_getD_eq_zip (fun x y => Real.log ((M x y : ℚ) : ℝ))]

/-- Claim C2: for every trained matrix, every bijective cipher and every
canonical ciphertext, `score_cipher` equals the sum over every adjacent
pair of the decrypted text `d = apply(invert(cipher), ciphertext)` of
`log(M[index(d[i])][index(d[i+1])])`; this score is always at most 0 and
is 0 exactly when the ciphertext has fewer than two symbols. -/
theorem claim_C2 (lines : List String) (cipher : Equiv.Perm (Fin 27))
    (enc : List (Fin 27)) :
    score_cipher (empirical_frequences lines) cipher enc
        = (((enc.map cipher.symm).zip (enc.map cipher.symm).tail).map
            (fun p => Real.log ((empirical_frequences lines p.1 p.2 : ℚ) : ℝ))).sum
    ∧ score_cipher (empirical_frequences lines) cipher enc ≤ 0
    ∧ (score_cipher (empirical_frequences lines) cipher enc = 0 ↔ enc.length < 2) := by
  have hsum := score_cipher_eq_sum (empirical_frequences lines) cipher enc
  have hneg : ∀ x ∈ ((enc.map cipher.symm).zip (enc.map cipher.symm).tail).map
      (fun p => Real.log ((empirical_frequences lines p.1 p.2 : ℚ) : ℝ)), x < 0 := by
    intro x hx
    obtain ⟨p, _, hpx⟩ := List.mem_map.mp hx
    rw [← hpx]
    apply Real.log_neg
    · exact_mod_cast empirical_frequences_pos lines p.1 p.2
    · exact_mod_cast empirical_frequences_lt_one lines p.1 p.2
  refine ⟨hsum, ?_, ?_⟩
  · rw [hsum]
    exact list_sum_nonpos_of_forall _ (fun x hx => le_of_lt (hneg x hx))
  · constructor
    · intro h0
      by_contra hlen
      push_neg at hlen
      rcases enc with _ | ⟨a, _ | ⟨b, t⟩⟩
      · simp at hlen
      · simp at hlen
      · have hne : (((a :: b :: t).map cipher.symm).zip
            (((a :: b :: t).map cipher.symm)).tail).map
            (fun p => Real.log ((empirical_frequences lines p.1 p.2 : ℚ) : ℝ)) ≠ [] := by
          simp
        have hlt := list_sum_neg_of_forall _ hneg hne
        rw [hsum] at h0
        linarith
    · intro hlen
      rw [hsum]
      rcases enc with _ | ⟨a, _ | ⟨b, t⟩⟩
      · simp
      · simp
      · simp only [List.length_cons] at hlen
        omega

/- ------------------------------------------------------------------ -/
/- The search loop: basic step and run facts.                          -/
/- ------------------------------------------------------------------ -/

theorem step_current_eq (M : Fin 27 → Fin 27 → ℚ) (enc : List (Fin 27))
    (st : MCMCState) (inp : StepInput) :
    (step M enc st inp).current
      = if proposalScore M enc st inp > st.currentScore
            ∨ inp.u < Real.exp (proposalScore M enc st inp - st.currentScore)
        then proposal st.current inp.r1 inp.r2 else st.current := rfl

theorem step_currentScore_eq (M : Fin 27 → Fin 27 → ℚ) (enc : List (Fin 27))
    (st : MCMCState) (inp : StepInput) :
    (step M enc st inp).currentScore
      = if proposalScore M enc st inp > st.currentScore
            ∨ inp.u < Real.exp (proposalScore M enc st inp - st.currentScore)
        then proposalScore M enc st inp else st.currentScore := rfl

theorem step_best_eq (M : Fin 27 → Fin 27 → ℚ) (enc : List (Fin 27))
    (st : MCMCState) (inp : StepInput) :
    (step M enc st inp).best
      = if proposalScore M enc st inp > st.bestScore
        then proposal st.current inp.r1 inp.r2 else st.best := rfl

theorem step_bestScore_eq (M : Fin 27 → Fin 27 → ℚ) (enc : List (Fin 27))
    (st : MCMCState) (inp : StepInput) :
    (step M enc st inp).bestScore
      = if proposalScore M enc st inp > st.bestScore
        then proposalScore M enc st inp else st.bestScore := rfl

theorem step_bestScore_le (M : Fin 27 → Fin 27 → ℚ) (enc : List (Fin 27))
    (st : MCMCState) (inp : StepInput) :
    st.bestScore ≤ (step M enc st inp).bestScore := by
  rw [step_bestScore_eq]
  by_cases h : proposalScore M enc st inp > st.bestScore
  · rw [if_pos h]
    exact le_of_lt h
  · rw [if_neg h]

theorem run_bestScore_le (M : Fin 27 → Fin 27 → ℚ) (enc : List (Fin 27)) :
    ∀ (inputs : List StepInput) (st : MCMCState),
      st.bestScore ≤ (run M enc st inputs).bestScore := by
  intro inputs
  induction inputs with
  | nil => intro st; simp [run]
  | cons inp rest ih =>
    intro st
    have h1 : run M enc st (inp :: rest) = run M enc (step M enc st inp) rest := by
      simp [run]
    rw [h1]
    exact le_trans (step_bestScore_le M enc st inp) (ih (step M enc st inp))

theorem step_cur_le_best (M : Fin 27 → Fin 27 → ℚ) (enc : List (Fin 27))
    (st : MCMCState) (inp : StepInput) (h : st.currentScore ≤ st.bestScore) :
    (step M enc st inp).currentScore ≤ (step M enc st inp).bestScore := by
  rw [step_currentScore_eq, step_bestScore_eq]
  by_cases hacc : proposalScore M enc st inp > st.currentScore
      ∨ inp.u < Real.exp (proposalScore M enc st inp - st.currentScore)
  · rw [if_pos hacc]
    by_cases hbb : proposalScore M enc st inp > st.bestScore
    · rw [if_pos hbb]
    · rw [if_neg hbb]
      exact le_of_not_lt hbb
  · rw [if_neg hacc]
    by_cases hbb : proposalScore M enc st inp > st.bestScore
    · rw [if_pos hbb]
      linarith
    · rw [if_neg hbb]
      exact h

theorem run_cur_le_best (M : Fin 27 → Fin 27 → ℚ) (enc : List (Fin 27)) :
    ∀ (inputs : List StepInput) (st : MCMCState),
      st.currentScore ≤ st.bestScore →
      (run M enc st inputs).currentScore ≤ (run M enc st inputs).bestScore := by
  intro inputs
  induction inputs with
  | nil => intro st h; simpa [run] using h
  | cons inp rest ih =>
    intro st h
    have h1 : run M enc st (inp :: rest) = run M enc (step M enc st inp) rest := by
      simp [run]
    rw [h1]
    exact ih (step M enc st inp) (step_cur_le_best M enc st inp h)

/-- Claim C3: in every iteration the proposal (images of the two drawn
symbols exchanged) is accepted exactly when its score strictly exceeds
the current score or the uniform draw from `[0, 1)` is below
`exp(candidate - current)`; on acceptance current cipher and score are
replaced by the candidate, otherwise unchanged; and the `a == b`
self-loop proposal has zero score delta, is always accepted, and leaves
the state unchanged. -/
theorem claim_C3 (M : Fin 27 → Fin 27 → ℚ) (enc : List (Fin 27))
    (st : MCMCState) (inp : StepInput)
    (hu : inp.u < 1)
    (hsc : st.currentScore = score_cipher M st.current enc)
    (hb : st.currentScore ≤ st.bestScore) :
    (step M enc st inp).current
        = (if proposalScore M enc st inp > st.currentScore
              ∨ inp.u < Real.exp (proposalScore M enc st inp - st.currentScore)
           then proposal st.current inp.r1 inp.r2 else st.current)
    ∧ (step M enc st inp).currentScore
        = (if proposalScore M enc st inp > st.currentScore
              ∨ inp.u < Real.exp (proposalScore M enc st inp - st.currentScore)
           then proposalScore M enc st inp else st.currentScore)
    ∧ (inp.r1 = inp.r2 → step M enc st inp = st) := by
  refine ⟨rfl, rfl, fun h12 => ?_⟩
  obtain ⟨r1, r2, u⟩ := inp
  simp only at h12
  subst h12
  have hone : Equiv.swap r1 r1 = (1 : Equiv.Perm (Fin 27)) := by
    rw [Equiv.swap_self]
    rfl
  have hprop : proposal st.current r1 r1 = st.current := by
    rw [proposal, hone, mul_one]
  have hps : proposalScore M enc st ⟨r1, r1, u⟩ = st.currentScore := by
    rw [proposalScore]
    simp only [hprop]
    rw [← hsc]
  apply MCMCState.ext
  · rw [step_current_eq, hps, hprop, ite_self]
  · rw [step_currentScore_eq, hps, ite_self]
  · rw [step_best_eq, hps, hprop, if_neg (not_lt.mpr hb)]
  · rw [step_bestScore_eq, hps, if_neg (not_lt.mpr hb)]

/-- Witness for claim C3: the self-loop step at a concrete state and
input, with every hypothesis holding there, returns the state
unchanged. -/
theorem claim_C3_witness :
    ((1 : ℝ) / 2 < 1)
    ∧ ((0 : ℝ) = score_cipher (empirical_frequences []) 1 [])
    ∧ ((0 : ℝ) ≤ 0)
    ∧ step (empirical_frequences []) [] ⟨1, 0, 1, 0⟩ ⟨0, 0, 1 / 2⟩ = ⟨1, 0, 1, 0⟩ := by
  have hsc : (0 : ℝ) = score_cipher (empirical_frequences []) 1 [] := by
    simp [score_cipher, scoreAux]
  refine ⟨by norm_num, hsc, le_rfl, ?_⟩
  exact (claim_C3 (empirical_frequences []) [] ⟨1, 0, 1, 0⟩ ⟨0, 0, 1 / 2⟩
    (by norm_num) hsc le_rfl).2.2 rfl

/-- Claim C4: across one run the tracked best score is non-decreasing,
and the best cipher/score pair is updated from the candidate whenever
the candidate's score strictly exceeds the best score, regardless of
whether the candidate was accepted into the chain's current state. -/
theorem claim_C4 (M : Fin 27 → Fin 27 → ℚ) (enc : List (Fin 27)) :
    (∀ (st : MCMCState) (inputs extra : List StepInput),
        (run M enc st inputs).bestScore ≤ (run M enc st (inputs ++ extra)).bestScore)
    ∧ (∀ (st : MCMCState) (inp : StepInput),
        (step M enc st inp).best
            = (if proposalScore M enc st inp > st.bestScore
               then proposal st.current inp.r1 inp.r2 else st.best)
          ∧ (step M enc st inp).bestScore
            = (if proposalScore M enc st inp > st.bestScore
               then proposalScore M enc st inp else st.bestScore)) := by
  refine ⟨fun st inputs extra => ?_, fun st inp => ⟨rfl, rfl⟩⟩
  have h1 : run M enc st (inputs ++ extra) = run M enc (run M enc st inputs) extra := by
    simp [run, List.foldl_append]
  rw [h1]
  exact run_bestScore_le M enc extra (run M enc st inputs)

/-- Claim C10: throughout every run the tracked best score is at least
the chain's current score: it holds after initialization (best is a
copy of current with the same score) and is preserved by every loop
iteration, whatever the acceptance outcome; hence the final state's
best cipher scores at least as well as its current cipher. -/
theorem claim_C10 (M : Fin 27 → Fin 27 → ℚ) (enc : List (Fin 27)) :
    (∀ c0, (initState M enc c0).currentScore ≤ (initState M enc c0).bestScore)
    ∧ (∀ (st : MCMCState) (inp : StepInput), st.currentScore ≤ st.bestScore →
        (step M enc st inp).currentScore ≤ (step M enc st inp).bestScore)
    ∧ (∀ (c0 : Equiv.Perm (Fin 27)) (inputs : List StepInput),
        (run M enc (initState M enc c0) inputs).currentScore
          ≤ (run M enc (initState M enc c0) inputs).bestScore) :=
  ⟨fun _ => le_rfl, fun st inp h => step_cur_le_best M enc st inp h,
    fun c0 inputs => run_cur_le_best M enc inputs (initState M enc c0) le_rfl⟩

/-- Witness for claim C10: the preservation step applied at a concrete
state satisfying the invariant. -/
theorem claim_C10_witness :
    ((0 : ℝ) ≤ 0)
    ∧ (step (empirical_frequences []) [] ⟨1, 0, 1, 0⟩ ⟨0, 1, 1 / 2⟩).currentScore
        ≤ (step (empirical_frequences []) [] ⟨1, 0, 1, 0⟩ ⟨0, 1, 1 / 2⟩).bestScore :=
  ⟨le_rfl, (claim_C10 (empirical_frequences []) []).2.1 ⟨1, 0, 1, 0⟩ ⟨0, 1, 1 / 2⟩ le_rfl⟩

/- ------------------------------------------------------------------ -/
/- The saved mapping is the inverse of the best cipher.                -/
/- ------------------------------------------------------------------ -/

theorem dictGet_map_pairs (c : Equiv.Perm (Fin 27)) (s : Fin 27) :
    ∀ (l : List (Fin 27)) (acc : Option (Fin 27)),
      ((l.map (fun k => (c k, k))).foldl
          (fun a p => if p.1 = s then some p.2 else a) acc)
        = if c.symm s ∈ l then some (c.symm s) else acc := by
  intro l
  induction l with
  | nil => intro acc; simp
  | cons k t ih =>
    intro acc
    simp only [List.map_cons, List.foldl_cons, List.mem_cons]
    by_cases hk : c k = s
    · have hks : k = c.symm s := by
        rw [← hk, Equiv.symm_apply_apply]
      rw [if_pos hk, ih]
      by_cases hmem : c.symm s ∈ t
      · simp [hmem]
      · simp [hmem, hks]
    · have hks : ¬(c.symm s = k) := by
        intro h
        exact hk (by rw [← h, Equiv.apply_symm_apply])
      rw [if_neg hk, ih]
      simp [hks]

theorem savedMapping_eq (c : Equiv.Perm (Fin 27)) (s : Fin 27) :
    savedMapping c s = some (c.symm s) := by
  unfold savedMapping dictGet reconstructPairs
  rw [dictGet_map_pairs]
  simp [List.mem_finRange]

theorem loopE_of_not_truthy (M : Fin 27 → Fin 27 → ℚ) (enc : List (Fin 27))
    (v : PyVal) (hv : truthy v = false) :
    ∀ (inputs : List StepInput) (i : ℕ) (st : MCMCState),
      loopE M enc v i st inputs = .ok (run M enc st inputs) := by
  intro inputs
  induction inputs with
  | nil => intro i st; simp [loopE, run]
  | cons inp rest ih =>
    intro i st
    have h1 : run M enc st (inp :: rest) = run M enc (step M enc st inp) rest := by
      simp [run]
    rw [h1, loopE, hv]
    simp only [Bool.and_false, Bool.false_eq_true, if_false]
    exact ih (i + 1) (step M enc st inp)

/-- Claim C5: `process_decryption` returns exactly the ciphertext
transformed by the inverse of the best cipher found (the mapping
reconstructed from the sorted keys of the best cipher equals its
inverse bijection); in particular with zero iterations the loop body
never runs and the returned text is the ciphertext transformed by the
inverse of the single initial cipher. -/
theorem claim_C5 (M : Fin 27 → Fin 27 → ℚ) (enc : List (Fin 27))
    (c0 : Equiv.Perm (Fin 27)) (inputs : List StepInput) :
    (∀ s, savedMapping (run M enc (initState M enc c0) inputs).best s
        = some ((run M enc (initState M enc c0) inputs).best.symm s))
    ∧ process_decryption ⟨true, some M⟩ enc c0 inputs (PyVal.pyBool false)
        = .ok (applyMapping ((run M enc (initState M enc c0) inputs).best).symm enc)
    ∧ process_decryption ⟨true, some M⟩ enc c0 [] (PyVal.pyBool false)
        = .ok (applyMapping (c0.symm) enc) := by
  have hgen : ∀ inputs2 : List StepInput,
      process_decryption ⟨true, some M⟩ enc c0 inputs2 (PyVal.pyBool false)
        = .ok (applyMapping ((run M enc (initState M enc c0) inputs2).best).symm enc) := by
    intro inputs2
    have h1 : process_decryption ⟨true, some M⟩ enc c0 inputs2 (PyVal.pyBool false)
        = (loopE M enc (PyVal.pyBool false) 0 (initState M enc c0) inputs2).map
            (fun final => enc.map (fun s => (savedMapping final.best s).getD 0)) := rfl
    rw [h1, loopE_of_not_truthy M enc (PyVal.pyBool false) rfl]
    have h2 : (Except.ok (run M enc (initState M enc c0) inputs2) :
          Except String MCMCState).map
          (fun final => enc.map (fun s => (savedMapping final.best s).getD 0))
        = Except.ok (enc.map (fun s =>
            (savedMapping (run M enc (initState M enc c0) inputs2).best s).getD 0)) := rfl
    rw [h2]
    congr 1
    simp [applyMapping, savedMapping_eq]
  refine ⟨fun s => savedMapping_eq _ s, hgen inputs, ?_⟩
  have h3 := hgen []
  have h4 : run M enc (initState M enc c0) [] = initState M enc c0 := rfl
  rw [h4] at h3
  exact h3

/-- Counterexample to claim C7: with no trained model at all
(`emp_freq_prepared` false, no `empirical_frequences` attribute), the
scoring call on an empty ciphertext does not fail with a precondition
violation: it silently returns score 0. -/
theorem claim_C7_counterexample :
    scoreCipherE ⟨false, none⟩ 1 [] = .ok 0 := rfl

/-- Claim C7, amended: with no trained Bigram Frequency Model,
`process_decryption` does fail with the precondition violation before
any computation, but `score_cipher` performs no precondition check: on a
decrypted text with fewer than two symbols it silently returns 0 even
when untrained, and otherwise it fails only with an attribute error
raised when the summing loop first reads the missing matrix, after the
decryption has been computed. -/
theorem claim_C7_amended (e : Engine) (he : e.emp_freq_prepared = false)
    (hm : e.empirical_frequences = none) :
    (∀ (enc : List (Fin 27)) (c0 : Equiv.Perm (Fin 27))
        (inputs : List StepInput) (v : PyVal),
        process_decryption e enc c0 inputs v
          = .error ("Prepare empirical frequences first."))
    ∧ (∀ (cipher : Equiv.Perm (Fin 27)) (enc : List (Fin 27)), 2 ≤ enc.length →
        scoreCipherE e cipher enc = .error ("AttributeError: empirical_frequences"))
    ∧ (∀ (cipher : Equiv.Perm (Fin 27)) (enc : List (Fin 27)), enc.length ≤ 1 →
        scoreCipherE e cipher enc = .ok 0) := by
  refine ⟨fun enc c0 inputs v => ?_, fun cipher enc hlen => ?_, fun cipher enc hlen => ?_⟩
  · simp [process_decryption, he]
  · rcases enc with _ | ⟨a, _ | ⟨b, t⟩⟩
    · simp at hlen
    · simp at hlen
    · simp only [scoreCipherE, List.map_cons, List.tail_cons, List.zip_cons_cons,
        List.foldlM_cons, hm]
      rfl
  · rcases enc with _ | ⟨a, _ | ⟨b, t⟩⟩
    · rfl
    · rfl
    · simp only [List.length_cons] at hlen
      omega

/-- Witness for claim C7 (amended): the untrained engine rejects
decryption, errors on a two-symbol scoring call, and silently returns 0
on an empty scoring call. -/
theorem claim_C7_witness :
    process_decryption ⟨false, none⟩ [] 1 [] (PyVal.pyBool false)
        = .error ("Prepare empirical frequences first.")
    ∧ scoreCipherE ⟨false, none⟩ 1 [0, 0]
        = .error ("AttributeError: empirical_frequences")
    ∧ scoreCipherE ⟨false, none⟩ 1 [] = .ok 0 := by
  have h := claim_C7_amended ⟨false, none⟩ rfl rfl
  exact ⟨h.1 [] 1 [] (PyVal.pyBool false), h.2.1 1 [0, 0] (by simp),
    h.2.2 1 [] (by simp)⟩

/-- Counterexample to claim C8: with reporting enabled (`verbose = -1`
is truthy) and a non-positive reporting interval, a call with zero
iterations is not rejected at call time: the loop body never runs, the
check inside the loop never executes, and the call returns normally. -/
theorem claim_C8_counterexample :
    process_decryption ⟨true, some (empirical_frequences [])⟩ [] 1 []
        (PyVal.pyInt (-1))
      = .ok [] := rfl

/-- Claim C8, amended: when reporting is enabled (truthy `verbose`) and
`verbose` is not a positive int, `process_decryption` fails with the
assertion during the first loop iteration — so only when at least one
iteration runs; with zero iterations the check never executes and the
call returns normally. -/
theorem claim_C8_amended (v : PyVal) (hv : truthy v = true)
    (hbad : verboseOK v = false) :
    (∀ (M : Fin 27 → Fin 27 → ℚ) (enc : List (Fin 27))
        (c0 : Equiv.Perm (Fin 27)) (inp : StepInput) (rest : List StepInput),
        process_decryption ⟨true, some M⟩ enc c0 (inp :: rest) v
          = .error ("Select verbose=False or pass positive integer"))
    ∧ (∀ (M : Fin 27 → Fin 27 → ℚ) (enc : List (Fin 27))
        (c0 : Equiv.Perm (Fin 27)),
        process_decryption ⟨true, some M⟩ enc c0 [] v
          = .ok (enc.map (fun s => (savedMapping c0 s).getD 0))) := by
  constructor
  · intro M enc c0 inp rest
    have h1 : process_decryption ⟨true, some M⟩ enc c0 (inp :: rest) v
        = (loopE M enc v 0 (initState M enc c0) (inp :: rest)).map
            (fun final => enc.map (fun s => (savedMapping final.best s).getD 0)) := rfl
    have h2 : loopE M enc v 0 (initState M enc c0) (inp :: rest)
        = .error ("Select verbose=False or pass positive integer") := by
      rw [loopE, hv, hbad]
      simp
    rw [h1, h2]
    rfl
  · intro M enc c0
    rfl

/-- Witness for claim C8 (amended): `verbose = -1` is truthy and not a
positive int, and a one-iteration call fails with the assertion. -/
theorem claim_C8_witness :
    truthy (PyVal.pyInt (-1)) = true
    ∧ verboseOK (PyVal.pyInt (-1)) = false
    ∧ process_decryption ⟨true, some (empirical_frequences [])⟩ [] 1
        [⟨0, 0, 0⟩] (PyVal.pyInt (-1))
        = .error ("Select verbose=False or pass positive integer") := by
  have h := claim_C8_amended (PyVal.pyInt (-1)) (by decide) (by decide)
  exact ⟨by decide, by decide, h.1 (empirical_frequences []) [] 1 ⟨0, 0, 0⟩ []⟩

end Enigma
